import Mathlib

/-!
# Verification of the nigori client cryptographic core

A shallow embedding of `src/client/nigori-client.py` (Python 2).  Byte
strings (Python 2 `str`) are modelled as `List Nat` with each element a
byte value below 256.  The external cryptographic primitives from
PyCrypto (`SHA256`, `AES` in CBC mode, `HMAC`) are abstract parameters
bundled in `CryptoPrims`; the properties the claims need (CBC decryption
inverts encryption on block-aligned input, length preservation, fixed
16-byte MAC digests, 32-byte hash digests) are stated as explicit
hypotheses.  The base64url codec (`base64.urlsafe_b64encode` /
`urlsafe_b64decode`) is implemented concretely.
-/

/-- A Python 2 byte string: a list of byte values. -/
abbrev Bytes := List Nat

/-- Every element of the list is a genuine byte value (below 256). -/
def ByteValid (bs : Bytes) : Prop := ∀ b ∈ bs, b < 256

instance : DecidablePred ByteValid := fun bs =>
  List.decidableBAll (fun b => b < 256) bs

/-- The base64url alphabet: character code of a sextet value 0–63
(`A`–`Z`, `a`–`z`, `0`–`9`, `-`, `_`). -/
def b64char (n : Nat) : Nat :=
  if n < 26 then 65 + n
  else if n < 52 then 97 + (n - 26)
  else if n < 62 then 48 + (n - 52)
  else if n = 62 then 45
  else 95

/-- Inverse of the base64url alphabet: sextet value of a character code,
`none` for characters outside the alphabet (in particular for `=`, code 61). -/
def b64value (ch : Nat) : Option Nat :=
  if 65 ≤ ch ∧ ch ≤ 90 then some (ch - 65)
  else if 97 ≤ ch ∧ ch ≤ 122 then some (26 + (ch - 97))
  else if 48 ≤ ch ∧ ch ≤ 57 then some (52 + (ch - 48))
  else if ch = 45 then some 62
  else if ch = 95 then some 63
  else none

/-- `base64.urlsafe_b64encode`: groups of three bytes become four alphabet
characters; a trailing group of one or two bytes is completed with `=`
padding (character code 61). -/
def b64encBytes : Bytes → Bytes
  | [] => []
  | [a] => [b64char (a / 4), b64char (a % 4 * 16), 61, 61]
  | [a, b] => [b64char (a / 4), b64char (a % 4 * 16 + b / 16),
               b64char (b % 16 * 4), 61]
  | a :: b :: d :: rest =>
      b64char (a / 4) :: b64char (a % 4 * 16 + b / 16) ::
      b64char (b % 16 * 4 + d / 64) :: b64char (d % 64) :: b64encBytes rest

/-- `base64.urlsafe_b64decode`: decodes four characters at a time,
accepting `=` padding only at the very end; `none` on malformed input
(Python raises a `binascii`/`TypeError` there). -/
def b64decBytes : Bytes → Option Bytes
  | [] => some []
  | c1 :: c2 :: c3 :: c4 :: rest =>
    match b64value c1, b64value c2 with
    | some v1, some v2 =>
      if c3 = 61 then
        if c4 = 61 ∧ rest = [] then some [v1 * 4 + v2 / 16] else none
      else
        match b64value c3 with
        | some v3 =>
          if c4 = 61 then
            if rest = [] then some [v1 * 4 + v2 / 16, v2 % 16 * 16 + v3 / 4]
            else none
          else
            match b64value c4, b64decBytes rest with
            | some v4, some bs =>
                some ((v1 * 4 + v2 / 16) :: (v2 % 16 * 16 + v3 / 4) ::
                      (v3 % 4 * 64 + v4) :: bs)
            | _, _ => none
        | none => none
    | _, _ => none
  | _ => none

/-! ## External cryptographic primitives

The client imports `SHA256`, `AES` (used in CBC mode) and `HMAC` from
PyCrypto.  Those library internals are outside this repository, so they
are abstract parameters here; the claims are proved under the standard
assumptions stated below, and concrete instances discharge them in the
witnesses. -/

/-- The PyCrypto primitives the client calls:
`sha256 x` models `SHA256.new(x).digest()`;
`cbcEncrypt key iv p` models `AES.new(key, AES.MODE_CBC, iv).encrypt(p)`;
`cbcDecrypt key iv p` models `AES.new(key, AES.MODE_CBC, iv).decrypt(p)`;
`hmac key m` models `HMAC.new(key, m).digest()` (HMAC with the default
MD5 digest, 16 bytes). -/
structure CryptoPrims where
  sha256 : Bytes → Bytes
  cbcEncrypt : Bytes → Bytes → Bytes → Bytes
  cbcDecrypt : Bytes → Bytes → Bytes → Bytes
  hmac : Bytes → Bytes → Bytes

/-- Standard block-cipher-in-CBC-mode facts: decryption inverts
encryption on block-aligned byte input, encryption preserves length, and
its output consists of bytes. -/
def GoodCipher (P : CryptoPrims) : Prop :=
  (∀ k iv p, ByteValid p → 16 ∣ p.length →
      P.cbcDecrypt k iv (P.cbcEncrypt k iv p) = p) ∧
  (∀ k iv p, (P.cbcEncrypt k iv p).length = p.length) ∧
  (∀ k iv p, ByteValid (P.cbcEncrypt k iv p))

/-- The MAC digest is always 16 bytes of genuine byte values. -/
def GoodMac (P : CryptoPrims) : Prop :=
  (∀ k m, (P.hmac k m).length = 16) ∧ (∀ k m, ByteValid (P.hmac k m))

/-- The hash digest is always 32 bytes. -/
def HashLen (P : CryptoPrims) : Prop := ∀ x, (P.sha256 x).length = 32

/-! ## KeyDeriver -/

/-- The `KeyDeriver` object: its three derived-key fields. -/
structure KeyDeriver where
  crypt : Bytes
  mac : Bytes
  authenticate : Bytes
deriving DecidableEq, Repr

/-- `KeyDeriver.__init__`: `crypt = SHA256(password)`,
`mac = SHA256(crypt)`, `authenticate = SHA256(mac)`. -/
def KeyDeriver.init (P : CryptoPrims) (password : Bytes) : KeyDeriver :=
  let crypt := P.sha256 password
  let mac := P.sha256 crypt
  { crypt := crypt, mac := mac, authenticate := P.sha256 mac }

/-- `KeyDeriver.encryptWithIV`: appends `pad = 16 - len(plain) % 16`
bytes each holding the value `pad`, CBC-encrypts the padded plaintext
under `crypt` with the given IV, and appends the HMAC (under `mac`) of
the ciphertext. -/
def encryptWithIV (P : CryptoPrims) (kd : KeyDeriver)
    (plain iv : Bytes) : Bytes :=
  let pad := 16 - plain.length % 16
  let padded := plain ++ List.replicate pad pad
  let crypted := P.cbcEncrypt kd.crypt iv padded
  crypted ++ P.hmac kd.mac crypted

/-- `KeyDeriver.encrypt`: draws a random 16-byte IV from
`randpool.RandomPool()` (passed here as the explicit argument `iv`),
prepends it to `encryptWithIV(plain, iv)` and base64url-encodes. -/
def encrypt (P : CryptoPrims) (kd : KeyDeriver) (iv plain : Bytes) :
    Bytes :=
  b64encBytes (iv ++ encryptWithIV P kd plain iv)

/-- `KeyDeriver.permute`: builds the all-zero 16-byte IV and
base64url-encodes `encryptWithIV(plain, iv)`.  Note the source does not
prepend the IV here. -/
def permute (P : CryptoPrims) (kd : KeyDeriver) (plain : Bytes) :
    Bytes :=
  let iv := List.replicate 16 0
  b64encBytes (encryptWithIV P kd plain iv)

/-- The failure modes of `KeyDeriver.decrypt`.  The source raises
`ValueError` with three distinct messages, which the spec names
`FormatError` (`"value too short"`), `AuthenticationError`
(`"mac doesn't match"`) and `PaddingError` (`"padding error"`);
`base64Error` models the `TypeError`/`binascii` failure of
`urlsafe_b64decode` on malformed input, and `indexError` models a
Python `IndexError` from an out-of-range string index. -/
inductive DecryptError where
  | base64Error
  | formatError
  | authenticationError
  | paddingError
  | indexError
deriving DecidableEq, Repr

/-- The pad-scan loop `for i in range(-1, -ord(c), -1)` of
`KeyDeriver.decrypt`, checking `plain[i] == c`: `count` is the number of
iterations remaining, `j` the distance of the current index from the end
(`i = -j`).  `plain[-j]` raises `IndexError` when `j` exceeds
`len(plain)`, and the scan raises the padding `ValueError` on the first
mismatching byte. -/
def padCheckFrom (plain : Bytes) (c : Nat) :
    Nat → Nat → Except DecryptError Unit
  | 0, _ => .ok ()
  | count + 1, j =>
    if plain.length < j then .error .indexError
    else if plain.getD (plain.length - j) 0 ≠ c then .error .paddingError
    else padCheckFrom plain c count (j + 1)

/-- `KeyDeriver.decrypt`: base64url-decodes, rejects decoded input
shorter than 32 bytes (`"value too short"`), splits off
`mac = crypted[l-16:]`, `iv = crypted[:16]`,
`ciphertext = crypted[16:l-16]`, recomputes and compares the HMAC
(`"mac doesn't match"`), CBC-decrypts the ciphertext, reads the last
plaintext byte `c` (an `IndexError` when the plaintext is empty), runs
the pad scan over `range(-1, -ord(c), -1)`, and returns `plain[:-ord(c)]`
— which is the empty string when `ord(c) = 0`, by Python slicing. -/
def decrypt (P : CryptoPrims) (kd : KeyDeriver) (crypted : Bytes) :
    Except DecryptError Bytes :=
  match b64decBytes crypted with
  | none => .error .base64Error
  | some cr =>
    let l := cr.length
    if l < 32 then .error .formatError
    else
      let mc := cr.drop (l - 16)
      let iv := cr.take 16
      let ct := (cr.drop 16).take (l - 32)
      if mc ≠ P.hmac kd.mac ct then .error .authenticationError
      else
        let plain := P.cbcDecrypt kd.crypt iv ct
        match plain.getLast? with
        | none => .error .indexError
        | some c =>
          match padCheckFrom plain c (c - 1) 1 with
          | .error e => .error e
          | .ok _ => .ok (if c = 0 then [] else
              plain.take (plain.length - c))

/-! ## Authentication-challenge construction -/

/-- The parameter map built by `makeAuthParams`:
`{"user": user, "t": t, "e": b64enc(e), "s": b64enc(s)}`. -/
structure AuthParams where
  user : String
  t : String
  e : Bytes
  s : Bytes
deriving DecidableEq, Repr

/-- `KeyDeriver.schnorr`: `return SchnorrSigner(self.authenticate)`.
The `SchnorrSigner` class itself lives in the external `nigori` module
(an out-of-scope collaborator per the spec, exposing
`sign(message) -> (e, s)`), so its constructor is the injected parameter
`schnorrSigner`; `schnorr` binds it to the `authenticate` key. -/
def KeyDeriver.schnorr (schnorrSigner : Bytes → String → Bytes × Bytes)
    (kd : KeyDeriver) : String → Bytes × Bytes :=
  schnorrSigner kd.authenticate

/-- `makeAuthParams(user, password)`: builds
`t = "%d:%d" % (int(time.time()), random.SystemRandom().getrandbits(20))`,
derives `keys = KeyDeriver(password)`, obtains
`schnorr = keys.schnorr()` — the signer bound to the `authenticate`
key — and signs `t` with it.  The clock reading (`timeNow`, whole
seconds), the 20-bit random draw (`rand20`) and the external
`SchnorrSigner` constructor are explicit parameters. -/
def makeAuthParams (P : CryptoPrims)
    (schnorrSigner : Bytes → String → Bytes × Bytes) (user : String)
    (password : Bytes) (timeNow rand20 : Nat) : AuthParams :=
  let t := toString timeNow ++ ":" ++ toString rand20
  let keys := KeyDeriver.init P password
  let schnorr := keys.schnorr schnorrSigner
  let es := schnorr t
  { user := user, t := t, e := b64encBytes es.1, s := b64encBytes es.2 }

/-! ## Resource naming (getList / add) -/

/-- Modelled from the spec: `int2bin` from the `nigori` module is not
under `src/`; the spec describes it as a fixed-width big-endian encoding
of the small integer `type`.  Width 4 bytes. -/
def int2bin (n : Nat) : Bytes :=
  [n / 16777216 % 256, n / 65536 % 256, n / 256 % 256, n % 256]

/-- Modelled from the spec: `concat` from the `nigori` module is not
under `src/`; the spec writes the combination of the parts as plain
concatenation `int2bin(type) ‖ name`. -/
def concat (xs : List Bytes) : Bytes := xs.flatten

/-- The request parameters assembled by `getList` before its HTTP call:
the auth parameters plus `params['name'] =
keys.permute(concat([int2bin(type), name]))`. -/
structure ListResourceParams where
  auth : AuthParams
  name : Bytes
deriving DecidableEq, Repr

/-- The parameter construction of `getList` (its HTTP exchange and
response printing are out of scope). -/
def getListParams (P : CryptoPrims)
    (schnorrSigner : Bytes → String → Bytes × Bytes) (user : String)
    (password : Bytes) (timeNow rand20 : Nat) (ty : Nat)
    (name : Bytes) : ListResourceParams :=
  let params := makeAuthParams P schnorrSigner user password timeNow rand20
  let keys := KeyDeriver.init P password
  { auth := params, name := permute P keys (concat [int2bin ty, name]) }

/-- The request parameters assembled by `add` before its HTTP call:
auth parameters, the permuted lookup name, and the encrypted value. -/
structure AddResourceParams where
  auth : AuthParams
  name : Bytes
  value : Bytes
deriving DecidableEq, Repr

/-- The parameter construction of `add`: as `getList`, plus
`params['value'] = keys.encrypt(value)`; the random IV drawn inside
`encrypt` is the explicit argument `iv`. -/
def addParams (P : CryptoPrims)
    (schnorrSigner : Bytes → String → Bytes × Bytes) (user : String)
    (password : Bytes) (timeNow rand20 : Nat) (ty : Nat)
    (name value iv : Bytes) : AddResourceParams :=
  let params := makeAuthParams P schnorrSigner user password timeNow rand20
  let keys := KeyDeriver.init P password
  { auth := params,
    name := permute P keys (concat [int2bin ty, name]),
    value := encrypt P keys iv value }

/-! ## Derived abbreviations and a concrete primitive instance -/

/-- The pad value computed by `encryptWithIV`: `16 - len(plain) % 16`. -/
def padVal (m : Bytes) : Nat := 16 - m.length % 16

/-- The padded plaintext built by `encryptWithIV`. -/
def paddedPlain (m : Bytes) : Bytes :=
  m ++ List.replicate (padVal m) (padVal m)

/-- A concrete executable instance of the primitive bundle, used to
evaluate the development on closed inputs. -/
def toyPrims : CryptoPrims where
  sha256 x := List.replicate 32 (x.length % 256)
  cbcEncrypt _ _ p := p.map (fun b => (b + 1) % 256)
  cbcDecrypt _ _ p := p.map (fun b => (b + 255) % 256)
  hmac k m := List.replicate 16 ((k.length + m.length) % 256)

/-! ## Base64 lemmas -/

theorem b64value_b64char : ∀ n < 64, b64value (b64char n) = some n := by
  decide

theorem b64char_ne_61 (n : Nat) : b64char n ≠ 61 := by
  unfold b64char
  split <;> [omega; skip]
  split <;> [omega; skip]
  split <;> [omega; skip]
  split <;> omega

/-- Decoding inverts encoding on genuine byte lists. -/
theorem b64decBytes_b64encBytes : ∀ bs : Bytes, ByteValid bs →
    b64decBytes (b64encBytes bs) = some bs
  | [], _ => by decide
  | [a], h => by
    have ha : a < 256 := h a (by simp)
    have h1 : b64value (b64char (a / 4)) = some (a / 4) :=
      b64value_b64char (a / 4) (by omega)
    have h2 : b64value (b64char (a % 4 * 16)) = some (a % 4 * 16) :=
      b64value_b64char (a % 4 * 16) (by omega)
    simp [b64encBytes, b64decBytes, h1, h2]
    omega
  | [a, b], h => by
    have ha : a < 256 := h a (by simp)
    have hb : b < 256 := h b (by simp)
    have h1 : b64value (b64char (a / 4)) = some (a / 4) :=
      b64value_b64char (a / 4) (by omega)
    have h2 : b64value (b64char (a % 4 * 16 + b / 16)) =
        some (a % 4 * 16 + b / 16) :=
      b64value_b64char (a % 4 * 16 + b / 16) (by omega)
    have h3 : b64value (b64char (b % 16 * 4)) = some (b % 16 * 4) :=
      b64value_b64char (b % 16 * 4) (by omega)
    simp [b64encBytes, b64decBytes, h1, h2, h3, b64char_ne_61]
    omega
  | a :: b :: d :: rest, h => by
    have ha : a < 256 := h a (by simp)
    have hb : b < 256 := h b (by simp)
    have hd : d < 256 := h d (by simp)
    have hrest : ByteValid rest := fun x hx => h x (by simp [hx])
    have h1 : b64value (b64char (a / 4)) = some (a / 4) :=
      b64value_b64char (a / 4) (by omega)
    have h2 : b64value (b64char (a % 4 * 16 + b / 16)) =
        some (a % 4 * 16 + b / 16) :=
      b64value_b64char (a % 4 * 16 + b / 16) (by omega)
    have h3 : b64value (b64char (b % 16 * 4 + d / 64)) =
        some (b % 16 * 4 + d / 64) :=
      b64value_b64char (b % 16 * 4 + d / 64) (by omega)
    have h4 : b64value (b64char (d % 64)) = some (d % 64) :=
      b64value_b64char (d % 64) (by omega)
    have hih := b64decBytes_b64encBytes rest hrest
    simp [b64encBytes, b64decBytes, h1, h2, h3, h4, b64char_ne_61, hih]
    omega

/-- Base64url encoding is injective on genuine byte lists. -/
theorem b64encBytes_injective {p q : Bytes} (hp : ByteValid p)
    (hq : ByteValid q) (h : b64encBytes p = b64encBytes q) : p = q := by
  have h1 := b64decBytes_b64encBytes p hp
  have h2 := b64decBytes_b64encBytes q hq
  rw [h, h2] at h1
  exact (Option.some.injEq _ _).mp h1.symm

/-! ## Cipher lemmas -/

/-- CBC encryption with a fixed key and IV is injective on block-aligned
byte input: a consequence of `GoodCipher`. -/
theorem cbcEncrypt_injective {P : CryptoPrims} (hP : GoodCipher P)
    (k iv : Bytes) {p q : Bytes} (hp : ByteValid p) (hq : ByteValid q)
    (hlp : 16 ∣ p.length) (hlq : 16 ∣ q.length)
    (h : P.cbcEncrypt k iv p = P.cbcEncrypt k iv q) : p = q := by
  have h1 := hP.1 k iv p hp hlp
  have h2 := hP.1 k iv q hq hlq
  rw [h, h2] at h1
  exact h1.symm

theorem toyPrims_goodCipher : GoodCipher toyPrims := by
  refine ⟨fun k iv p hp hd => ?_, fun k iv p => by
    simp [toyPrims], fun k iv p => ?_⟩
  · show (p.map _).map _ = p
    rw [List.map_map]
    clear hd
    induction p with
    | nil => rfl
    | cons a t ih =>
      have ha : a < 256 := hp a (by simp)
      have ht : ByteValid t := fun x hx => hp x (by simp [hx])
      simp only [List.map_cons, Function.comp]
      rw [ih ht]
      congr 1
      omega
  · intro b hb
    simp only [toyPrims, List.mem_map] at hb
    obtain ⟨x, _, hx⟩ := hb
    omega

theorem toyPrims_goodMac : GoodMac toyPrims := by
  refine ⟨fun k m => by simp [toyPrims], fun k m b hb => ?_⟩
  simp only [toyPrims, List.mem_replicate] at hb
  omega

theorem toyPrims_hashLen : HashLen toyPrims := fun x => by
  simp [toyPrims]

/-! ## Padding facts -/

theorem padVal_pos (m : Bytes) : 1 ≤ padVal m := by
  have := Nat.mod_lt m.length (show 0 < 16 by omega)
  unfold padVal
  omega

theorem padVal_le (m : Bytes) : padVal m ≤ 16 := by
  unfold padVal
  omega

theorem padVal_of_dvd {m : Bytes} (h : 16 ∣ m.length) : padVal m = 16 := by
  unfold padVal
  omega

theorem paddedPlain_length (m : Bytes) :
    (paddedPlain m).length = m.length + padVal m := by
  simp [paddedPlain]

theorem paddedPlain_dvd (m : Bytes) : 16 ∣ (paddedPlain m).length := by
  rw [paddedPlain_length]
  unfold padVal
  have := Nat.mod_lt m.length (show 0 < 16 by omega)
  have := Nat.div_add_mod m.length 16
  exact ⟨m.length / 16 + 1, by omega⟩

theorem paddedPlain_byteValid {m : Bytes} (h : ByteValid m) :
    ByteValid (paddedPlain m) := by
  intro b hb
  rcases List.mem_append.mp hb with hm | hr
  · exact h b hm
  · have := List.eq_of_mem_replicate hr
    have := padVal_le m
    omega

theorem encryptWithIV_eq (P : CryptoPrims) (kd : KeyDeriver)
    (plain iv : Bytes) :
    encryptWithIV P kd plain iv =
      P.cbcEncrypt kd.crypt iv (paddedPlain plain) ++
      P.hmac kd.mac (P.cbcEncrypt kd.crypt iv (paddedPlain plain)) := rfl

theorem getD_replicate_lt {α : Type} (n : Nat) (a d : α) (i : Nat)
    (h : i < n) : (List.replicate n a).getD i d = a := by
  rw [List.getD_eq_getElem _ _ (by simpa using h)]
  simp

theorem getLast?_replicate_pos {α : Type} (n : Nat) (a : α)
    (h : 1 ≤ n) : (List.replicate n a).getLast? = some a := by
  obtain ⟨k, rfl⟩ : ∃ k, n = k + 1 := ⟨n - 1, by omega⟩
  rw [List.replicate_succ', List.getLast?_concat]

theorem paddedPlain_getLast? (m : Bytes) :
    (paddedPlain m).getLast? = some (padVal m) := by
  rw [paddedPlain, List.getLast?_append_of_ne_nil _ (by
    simp [List.replicate, padVal]
    have := Nat.mod_lt m.length (show 0 < 16 by omega)
    omega)]
  exact getLast?_replicate_pos _ _ (padVal_pos m)

/-- The padding construction is injective: the last byte of the padded
plaintext reveals the pad length, hence the original length. -/
theorem paddedPlain_injective {m1 m2 : Bytes}
    (h : paddedPlain m1 = paddedPlain m2) : m1 = m2 := by
  have hg := congrArg List.getLast? h
  rw [paddedPlain_getLast?, paddedPlain_getLast?] at hg
  have hp : padVal m1 = padVal m2 := by
    exact Option.some.injEq _ _ |>.mp hg
  have hl := congrArg List.length h
  rw [paddedPlain_length, paddedPlain_length] at hl
  have hml : m1.length = m2.length := by omega
  have ht := congrArg (List.take m1.length) h
  rw [paddedPlain, paddedPlain, List.take_left, hml, List.take_left] at ht
  exact ht

/-- The pad scan succeeds when every inspected position is in range and
holds the value `c`. -/
theorem padCheckFrom_ok (plain : Bytes) (c : Nat) : ∀ count j : Nat,
    (∀ i, j ≤ i → i < j + count →
      i ≤ plain.length ∧ plain.getD (plain.length - i) 0 = c) →
    padCheckFrom plain c count j = .ok ()
  | 0, _, _ => rfl
  | count + 1, j, h => by
    have h0 := h j le_rfl (by omega)
    simp only [padCheckFrom]
    rw [if_neg (by omega), if_neg (fun hc => hc h0.2)]
    exact padCheckFrom_ok plain c count (j + 1)
      (fun i hi1 hi2 => h i (by omega) (by omega))

/-- The pad scan fails with the padding error at the first in-range
mismatch. -/
theorem padCheckFrom_error (plain : Bytes) (c : Nat) :
    ∀ count j jbad : Nat, j ≤ jbad → jbad < j + count →
    jbad ≤ plain.length → plain.getD (plain.length - jbad) 0 ≠ c →
    (∀ i, j ≤ i → i < jbad → plain.getD (plain.length - i) 0 = c) →
    padCheckFrom plain c count j = .error .paddingError
  | 0, j, jbad, h1, h2, _, _, _ => by omega
  | count + 1, j, jbad, h1, h2, h3, h4, h5 => by
    simp only [padCheckFrom]
    rw [if_neg (by omega)]
    by_cases hj : j = jbad
    · subst hj
      rw [if_pos h4]
    · rw [if_neg (fun hc => hc (h5 j le_rfl (by omega)))]
      exact padCheckFrom_error plain c count (j + 1) jbad (by omega)
        (by omega) h3 h4 (fun i hi1 hi2 => h5 i (by omega) hi2)

/-- The pad scan only ever produces success, an index error, or a
padding error. -/
theorem padCheckFrom_cases (plain : Bytes) (c : Nat) : ∀ count j : Nat,
    padCheckFrom plain c count j = .ok () ∨
    padCheckFrom plain c count j = .error .indexError ∨
    padCheckFrom plain c count j = .error .paddingError
  | 0, _ => Or.inl rfl
  | count + 1, j => by
    simp only [padCheckFrom]
    split
    · exact Or.inr (Or.inl rfl)
    · split
      · exact Or.inr (Or.inr rfl)
      · exact padCheckFrom_cases plain c count (j + 1)

/-! ## Decrypt evaluation lemmas -/

/-- Splitting `iv ‖ ciphertext ‖ mac` the way `decrypt` slices its
decoded input. -/
theorem split_envelope (iv0 ct0 mac0 : Bytes) (hiv : iv0.length = 16)
    (hm : mac0.length = 16) :
    (iv0 ++ (ct0 ++ mac0)).length = 32 + ct0.length ∧
    (iv0 ++ (ct0 ++ mac0)).drop ((iv0 ++ (ct0 ++ mac0)).length - 16) =
      mac0 ∧
    (iv0 ++ (ct0 ++ mac0)).take 16 = iv0 ∧
    ((iv0 ++ (ct0 ++ mac0)).drop 16).take
      ((iv0 ++ (ct0 ++ mac0)).length - 32) = ct0 := by
  have hlen : (iv0 ++ (ct0 ++ mac0)).length = 32 + ct0.length := by
    simp [hiv, hm]
    omega
  refine ⟨hlen, ?_, List.take_left' hiv, ?_⟩
  · rw [hlen, ← List.append_assoc]
    have : 32 + ct0.length - 16 = (iv0 ++ ct0).length := by
      simp [hiv]
      omega
    rw [this, List.drop_left]
  · rw [hlen, List.drop_left' hiv]
    have : 32 + ct0.length - 32 = ct0.length := by omega
    rw [this, List.take_left]

/-- Evaluation of `decrypt` past a successful MAC comparison. -/
theorem decrypt_mac_ok (P : CryptoPrims) (kd : KeyDeriver)
    {s cr plain : Bytes} (hdec : b64decBytes s = some cr)
    (hlen : 32 ≤ cr.length)
    (hmc : cr.drop (cr.length - 16) =
      P.hmac kd.mac ((cr.drop 16).take (cr.length - 32)))
    (hplain : P.cbcDecrypt kd.crypt (cr.take 16)
      ((cr.drop 16).take (cr.length - 32)) = plain) :
    decrypt P kd s =
      match plain.getLast? with
      | none => Except.error DecryptError.indexError
      | some c =>
        match padCheckFrom plain c (c - 1) 1 with
        | Except.error e => Except.error e
        | Except.ok _ => Except.ok (if c = 0 then [] else
            plain.take (plain.length - c)) := by
  unfold decrypt
  rw [hdec]
  simp only []
  rw [if_neg (by omega), if_neg (fun hc => hc hmc), hplain]

/-- Evaluation of `decrypt` at a failed MAC comparison. -/
theorem decrypt_mac_fail (P : CryptoPrims) (kd : KeyDeriver)
    {s cr : Bytes} (hdec : b64decBytes s = some cr)
    (hlen : 32 ≤ cr.length)
    (hmc : cr.drop (cr.length - 16) ≠
      P.hmac kd.mac ((cr.drop 16).take (cr.length - 32))) :
    decrypt P kd s = .error .authenticationError := by
  unfold decrypt
  rw [hdec]
  simp only []
  rw [if_neg (by omega), if_pos hmc]

/-- Evaluation of `decrypt` on undersized decoded input. -/
theorem decrypt_short (P : CryptoPrims) (kd : KeyDeriver)
    {s cr : Bytes} (hdec : b64decBytes s = some cr)
    (hlen : cr.length < 32) :
    decrypt P kd s = .error .formatError := by
  unfold decrypt
  rw [hdec]
  simp only []
  rw [if_pos hlen]

/-! ## Injectivity of the deterministic mode -/

theorem encryptWithIV_byteValid {P : CryptoPrims} (hC : GoodCipher P)
    (hM : GoodMac P) (kd : KeyDeriver) (plain iv : Bytes) :
    ByteValid (encryptWithIV P kd plain iv) := by
  rw [encryptWithIV_eq]
  intro b hb
  rcases List.mem_append.mp hb with h1 | h2
  · exact hC.2.2 kd.crypt iv (paddedPlain plain) b h1
  · exact hM.2 kd.mac _ b h2

theorem encryptWithIV_injective {P : CryptoPrims} (hC : GoodCipher P)
    (hM : GoodMac P) (kd : KeyDeriver) (iv : Bytes) {m1 m2 : Bytes}
    (h1 : ByteValid m1) (h2 : ByteValid m2)
    (h : encryptWithIV P kd m1 iv = encryptWithIV P kd m2 iv) :
    m1 = m2 := by
  rw [encryptWithIV_eq, encryptWithIV_eq] at h
  have hctlen : (P.cbcEncrypt kd.crypt iv (paddedPlain m1)).length =
      (P.cbcEncrypt kd.crypt iv (paddedPlain m2)).length := by
    have := congrArg List.length h
    simp only [List.length_append] at this
    rw [hM.1, hM.1] at this
    omega
  have hct := (List.append_inj h hctlen).1
  have hpad := cbcEncrypt_injective hC kd.crypt iv
    (paddedPlain_byteValid h1) (paddedPlain_byteValid h2)
    (paddedPlain_dvd m1) (paddedPlain_dvd m2) hct
  exact paddedPlain_injective hpad

theorem permute_injective {P : CryptoPrims} (hC : GoodCipher P)
    (hM : GoodMac P) (kd : KeyDeriver) {m1 m2 : Bytes}
    (h1 : ByteValid m1) (h2 : ByteValid m2)
    (h : permute P kd m1 = permute P kd m2) : m1 = m2 := by
  unfold permute at h
  exact encryptWithIV_injective hC hM kd (List.replicate 16 0) h1 h2
    (b64encBytes_injective (encryptWithIV_byteValid hC hM kd _ _)
      (encryptWithIV_byteValid hC hM kd _ _) h)

theorem int2bin_byteValid (n : Nat) : ByteValid (int2bin n) := by
  intro b hb
  simp only [int2bin, List.mem_cons, List.not_mem_nil, or_false] at hb
  rcases hb with h | h | h | h <;> omega

theorem int2bin_append_injective {ty1 ty2 : Nat} {n1 n2 : Bytes}
    (h1 : ty1 < 4294967296) (h2 : ty2 < 4294967296)
    (h : int2bin ty1 ++ n1 = int2bin ty2 ++ n2) : ty1 = ty2 ∧ n1 = n2 := by
  have hlen : (int2bin ty1).length = (int2bin ty2).length := by
    simp [int2bin]
  obtain ⟨ha, hb⟩ := List.append_inj h hlen
  refine ⟨?_, hb⟩
  simp only [int2bin, List.cons.injEq, and_true] at ha
  omega

/-! ## Claims -/

/-- C1.  Round-trip: for every password `p` and every plaintext byte
string `m` (including the empty string and strings whose length is an
exact multiple of 16), and for any 16-byte IV drawn by `encrypt`,
`decrypt(p, encrypt(p, m))` returns exactly `m`.  Stated over any
primitives satisfying the CBC-inverse, length-preservation and MAC-shape
assumptions. -/
theorem C1_round_trip (P : CryptoPrims) (hC : GoodCipher P)
    (hM : GoodMac P) (password m iv : Bytes) (hiv : iv.length = 16)
    (hivb : ByteValid iv) (hm : ByteValid m) :
    decrypt P (KeyDeriver.init P password)
      (encrypt P (KeyDeriver.init P password) iv m) = .ok m := by
  set kd := KeyDeriver.init P password with hkd
  set ct := P.cbcEncrypt kd.crypt iv (paddedPlain m) with hctdef
  set mc := P.hmac kd.mac ct with hmcdef
  have henc : encrypt P kd iv m = b64encBytes (iv ++ (ct ++ mc)) := rfl
  have hvalid : ByteValid (iv ++ (ct ++ mc)) := by
    intro b hb
    rcases List.mem_append.mp hb with h1 | h2
    · exact hivb b h1
    · rcases List.mem_append.mp h2 with h3 | h4
      · exact hC.2.2 kd.crypt iv (paddedPlain m) b h3
      · exact hM.2 kd.mac ct b h4
  have hdec : b64decBytes (b64encBytes (iv ++ (ct ++ mc))) =
      some (iv ++ (ct ++ mc)) := b64decBytes_b64encBytes _ hvalid
  obtain ⟨hlen, hdrop, htake, hctsl⟩ :=
    split_envelope iv ct mc hiv (hM.1 _ _)
  rw [henc]
  unfold decrypt
  rw [hdec]
  simp only []
  rw [if_neg (by omega), if_neg (by rw [hdrop, hctsl]; simp)]
  have hplain : P.cbcDecrypt kd.crypt ((iv ++ (ct ++ mc)).take 16)
      (((iv ++ (ct ++ mc)).drop 16).take ((iv ++ (ct ++ mc)).length - 32)) =
      paddedPlain m := by
    rw [htake, hctsl, hctdef]
    exact hC.1 kd.crypt iv (paddedPlain m) (paddedPlain_byteValid hm)
      (paddedPlain_dvd m)
  rw [hplain, paddedPlain_getLast?]
  show (match padCheckFrom (paddedPlain m) (padVal m) (padVal m - 1) 1 with
    | Except.error e => Except.error e
    | Except.ok _ => Except.ok (if padVal m = 0 then [] else
        List.take (List.length (paddedPlain m) - padVal m)
          (paddedPlain m))) = Except.ok m
  have hok : padCheckFrom (paddedPlain m) (padVal m) (padVal m - 1) 1 =
      .ok () := by
    apply padCheckFrom_ok
    intro i hi1 hi2
    have hp1 := padVal_pos m
    have hp16 := padVal_le m
    have hlenp := paddedPlain_length m
    have hip : i < padVal m := by omega
    refine ⟨by omega, ?_⟩
    rw [paddedPlain, List.getD_append_right _ _ _ _ (by
      rw [← paddedPlain, hlenp]; omega)]
    rw [← paddedPlain, hlenp]
    have : m.length + padVal m - i - m.length = padVal m - i := by omega
    rw [this]
    exact getD_replicate_lt _ _ _ _ (by omega)
  rw [hok]
  show Except.ok (if padVal m = 0 then [] else
      List.take (List.length (paddedPlain m) - padVal m)
        (paddedPlain m)) = Except.ok m
  rw [if_neg (by have := padVal_pos m; omega)]
  have hp1 := padVal_pos m
  have : (paddedPlain m).length - padVal m = m.length := by
    rw [paddedPlain_length]; omega
  rw [this, paddedPlain, List.take_left]

/-- Witness for C1: a concrete round trip, m of length 3. -/
theorem C1_round_trip_witness :
    decrypt toyPrims (KeyDeriver.init toyPrims [5])
      (encrypt toyPrims (KeyDeriver.init toyPrims [5])
        (List.replicate 16 7) [1, 2, 3]) = .ok [1, 2, 3] :=
  C1_round_trip toyPrims toyPrims_goodCipher toyPrims_goodMac [5]
    [1, 2, 3] (List.replicate 16 7) (by decide) (by decide) (by decide)

/-- C2.  Envelope structure and padding rule: the base64url-decoded
output of `encrypt(m)` is IV (16 bytes) followed by ciphertext followed
by MAC (16 bytes), the ciphertext has length `len(m) + pad` with
`pad = 16 - (len(m) mod 16)` in 1..16, the pad bytes each hold the
value `pad`, and a block-aligned plaintext receives a full extra
16-byte pad block. -/
theorem C2_envelope (P : CryptoPrims) (hC : GoodCipher P)
    (hM : GoodMac P) (password m iv : Bytes) (hiv : iv.length = 16)
    (hivb : ByteValid iv) (hm : ByteValid m) :
    let kd := KeyDeriver.init P password
    let pad := 16 - m.length % 16
    let ct := P.cbcEncrypt kd.crypt iv (m ++ List.replicate pad pad)
    b64decBytes (encrypt P kd iv m) =
      some (iv ++ ct ++ P.hmac kd.mac ct) ∧
    ct.length = m.length + pad ∧ 1 ≤ pad ∧ pad ≤ 16 ∧
    (m ++ List.replicate pad pad).drop m.length =
      List.replicate pad pad ∧
    (16 ∣ m.length → pad = 16) := by
  intro kd pad ct
  have hpadeq : pad = padVal m := rfl
  have hcteq : ct = P.cbcEncrypt kd.crypt iv (paddedPlain m) := rfl
  have hvalid : ByteValid (iv ++ (ct ++ P.hmac kd.mac ct)) := by
    intro b hb
    rcases List.mem_append.mp hb with h1 | h2
    · exact hivb b h1
    · rcases List.mem_append.mp h2 with h3 | h4
      · exact hC.2.2 kd.crypt iv (paddedPlain m) b h3
      · exact hM.2 kd.mac ct b h4
  refine ⟨?_, ?_, ?_, ?_, List.drop_left m _, ?_⟩
  · have henc : encrypt P kd iv m =
        b64encBytes (iv ++ (ct ++ P.hmac kd.mac ct)) := rfl
    rw [henc, b64decBytes_b64encBytes _ hvalid, List.append_assoc]
  · rw [hcteq, hC.2.1]
    simp [paddedPlain, padVal, hpadeq]
  · rw [hpadeq]
    exact padVal_pos m
  · rw [hpadeq]
    exact padVal_le m
  · intro hdvd
    rw [hpadeq]
    exact padVal_of_dvd hdvd

/-- Witness for C2: block-aligned plaintext (length 16), full pad block. -/
theorem C2_envelope_witness :
    b64decBytes (encrypt toyPrims (KeyDeriver.init toyPrims [5])
      (List.replicate 16 7) (List.replicate 16 9)) =
      some (List.replicate 16 7 ++
        toyPrims.cbcEncrypt (KeyDeriver.init toyPrims [5]).crypt
          (List.replicate 16 7)
          (List.replicate 16 9 ++ List.replicate 16 16) ++
        toyPrims.hmac (KeyDeriver.init toyPrims [5]).mac
          (toyPrims.cbcEncrypt (KeyDeriver.init toyPrims [5]).crypt
            (List.replicate 16 7)
            (List.replicate 16 9 ++ List.replicate 16 16))) ∧
    (16 : Nat) - (List.replicate 16 9 : Bytes).length % 16 = 16 :=
  ⟨(C2_envelope toyPrims toyPrims_goodCipher toyPrims_goodMac [5]
      (List.replicate 16 9) (List.replicate 16 7) (by decide) (by decide)
      (by decide)).1,
   by decide⟩

/-- C3.  Verify-then-decrypt ordering: for every envelope whose decoded
length is at least 32 bytes, on MAC mismatch `decrypt` fails with
`AuthenticationError` — and the result is the same for every possible
block-cipher decryption function, which expresses that no decryption or
padding inspection takes part in the outcome. -/
theorem C3_verify_then_decrypt (P : CryptoPrims) (kd : KeyDeriver)
    (s cr : Bytes) (hdec : b64decBytes s = some cr)
    (hlen : 32 ≤ cr.length)
    (hmismatch : cr.drop (cr.length - 16) ≠
      P.hmac kd.mac ((cr.drop 16).take (cr.length - 32))) :
    ∀ D, decrypt { P with cbcDecrypt := D } kd s =
      .error .authenticationError := by
  intro D
  exact decrypt_mac_fail { P with cbcDecrypt := D } kd hdec hlen hmismatch

/-- Witness for C3: a 32-byte all-zero envelope, wrong MAC, arbitrary
substitute decryption function. -/
theorem C3_verify_then_decrypt_witness :
    decrypt { toyPrims with cbcDecrypt := fun _ _ p => p }
      (KeyDeriver.init toyPrims [5])
      (b64encBytes (List.replicate 32 0)) =
      .error .authenticationError :=
  C3_verify_then_decrypt toyPrims (KeyDeriver.init toyPrims [5])
    (b64encBytes (List.replicate 32 0)) (List.replicate 32 0)
    (by decide) (by decide) (by decide) (fun _ _ p => p)

/-- C4 counterexample: an envelope that passes the length and MAC checks
and whose last decrypted byte is `c = 0`.  The claim requires a
`PaddingError` (`0` is outside `1..16`), but `decrypt` returns
`Except.ok []` — the Python slice `plain[:-0]` is the empty string and
no range check on `c` exists in the code. -/
theorem C4_counterexample :
    decrypt toyPrims (KeyDeriver.init toyPrims [5])
      (b64encBytes (List.replicate 16 0 ++ List.replicate 16 1 ++
        List.replicate 16 48)) = .ok [] ∧
    (toyPrims.cbcDecrypt (KeyDeriver.init toyPrims [5]).crypt
      (List.replicate 16 0) (List.replicate 16 1)).getLast? = some 0 := by
  exact ⟨rfl, rfl⟩

/-- C4 amended.  For every envelope that passes the length check and the
MAC check, `decrypt` reads the last decrypted byte as the claimed pad
length `c`.  It performs no range validation of `c` at all: if `c = 0`
it returns the empty string; if `1 ≤ c ≤ len(plain)` and each of the
last `c` decrypted bytes equals `c` it strips exactly `c` bytes and
returns the rest; and it fails with `PaddingError` exactly on the first
in-range mismatching byte of the scan. -/
theorem C4_padding_validation (P : CryptoPrims) (kd : KeyDeriver)
    (s cr plain : Bytes) (hdec : b64decBytes s = some cr)
    (hlen : 32 ≤ cr.length)
    (hmc : cr.drop (cr.length - 16) =
      P.hmac kd.mac ((cr.drop 16).take (cr.length - 32)))
    (hplain : P.cbcDecrypt kd.crypt (cr.take 16)
      ((cr.drop 16).take (cr.length - 32)) = plain) :
    ∀ c, plain.getLast? = some c →
      ((c = 0 → decrypt P kd s = .ok []) ∧
       (1 ≤ c → c ≤ plain.length →
         (∀ i, 1 ≤ i → i < c → plain.getD (plain.length - i) 0 = c) →
         decrypt P kd s = .ok (plain.take (plain.length - c))) ∧
       (∀ j, 2 ≤ j → j ≤ plain.length → j < c →
         plain.getD (plain.length - j) 0 ≠ c →
         (∀ i, 1 ≤ i → i < j → plain.getD (plain.length - i) 0 = c) →
         decrypt P kd s = .error .paddingError)) := by
  intro c hc
  have heval := decrypt_mac_ok P kd hdec hlen hmc hplain
  rw [hc] at heval
  have heval2 : decrypt P kd s =
      match padCheckFrom plain c (c - 1) 1 with
      | Except.error e => Except.error e
      | Except.ok _ => Except.ok (if c = 0 then [] else
          plain.take (plain.length - c)) := heval
  refine ⟨?_, ?_, ?_⟩
  · intro h0
    subst h0
    rw [heval2]
    rfl
  · intro h1 hle hall
    rw [heval2]
    have hok : padCheckFrom plain c (c - 1) 1 = .ok () := by
      apply padCheckFrom_ok
      intro i hi1 hi2
      exact ⟨by omega, hall i hi1 (by omega)⟩
    rw [hok]
    show Except.ok (if c = 0 then [] else
      plain.take (plain.length - c)) = _
    rw [if_neg (by omega)]
  · intro j hj2 hjlen hjc hbad hgood
    rw [heval2]
    have herr : padCheckFrom plain c (c - 1) 1 =
        .error .paddingError :=
      padCheckFrom_error plain c (c - 1) 1 j (by omega) (by omega)
        hjlen hbad (fun i hi1 hi2 => hgood i hi1 hi2)
    rw [herr]

/-- Witness for C4 amended: a valid pad (c = 16) is stripped, branch
two of the conclusion at a concrete envelope. -/
theorem C4_padding_validation_witness :
    decrypt toyPrims (KeyDeriver.init toyPrims [5])
      (b64encBytes (List.replicate 16 0 ++ List.replicate 16 17 ++
        List.replicate 16 48)) = .ok [] :=
  ((C4_padding_validation toyPrims (KeyDeriver.init toyPrims [5])
      (b64encBytes (List.replicate 16 0 ++ List.replicate 16 17 ++
        List.replicate 16 48))
      (List.replicate 16 0 ++ List.replicate 16 17 ++ List.replicate 16 48)
      (List.replicate 16 16) (by decide) (by decide) (by decide)
      (by decide) 16 (by decide)).2.1 (by decide) (by decide)
      (by intro i h1 h2; interval_cases i <;> decide))

/-- C5.  Undersized-envelope rejection: for every input whose base64url
decoding succeeds, `decrypt` fails with `FormatError` exactly when the
decoded input is shorter than 32 bytes; moreover in that case the result
is `FormatError` for every choice of primitives, i.e. before any MAC or
padding processing. -/
theorem C5_undersized (P : CryptoPrims) (kd : KeyDeriver) (s cr : Bytes)
    (hdec : b64decBytes s = some cr) :
    (decrypt P kd s = .error .formatError ↔ cr.length < 32) ∧
    (cr.length < 32 → ∀ Q : CryptoPrims, decrypt Q kd s =
      .error .formatError) := by
  have hshort : cr.length < 32 → ∀ Q : CryptoPrims, decrypt Q kd s =
      .error .formatError := fun hlt Q => decrypt_short Q kd hdec hlt
  refine ⟨⟨fun h => ?_, fun hlt => hshort hlt P⟩, hshort⟩
  by_contra hlen
  push_neg at hlen
  by_cases hmc : cr.drop (cr.length - 16) =
      P.hmac kd.mac ((cr.drop 16).take (cr.length - 32))
  · have heval := decrypt_mac_ok P kd hdec hlen hmc rfl
    rw [heval] at h
    set plain := P.cbcDecrypt kd.crypt (cr.take 16)
      ((cr.drop 16).take (cr.length - 32)) with hpl
    cases hg : plain.getLast? with
    | none =>
      rw [hg] at h
      have h2 : (Except.error DecryptError.indexError :
          Except DecryptError Bytes) =
          Except.error DecryptError.formatError := h
      simp at h2
    | some c =>
      rw [hg] at h
      have h2 : (match padCheckFrom plain c (c - 1) 1 with
        | Except.error e => Except.error e
        | Except.ok _ => Except.ok (if c = 0 then [] else
            plain.take (plain.length - c))) =
          Except.error DecryptError.formatError := h
      rcases padCheckFrom_cases plain c (c - 1) 1 with hcase | hcase | hcase <;>
        rw [hcase] at h2 <;> simp at h2
  · rw [decrypt_mac_fail P kd hdec hlen hmc] at h
    simp at h

/-- Witness for C5: a 16-byte decoded envelope is rejected as too
short. -/
theorem C5_undersized_witness :
    decrypt toyPrims (KeyDeriver.init toyPrims [5])
      (b64encBytes (List.replicate 16 0)) = .error .formatError :=
  (C5_undersized toyPrims (KeyDeriver.init toyPrims [5])
    (b64encBytes (List.replicate 16 0)) (List.replicate 16 0)
    (by decide)).1.mpr (by decide)

/-- C6 counterexample: `permute` is not identical to `encrypt` with the
all-zero IV substituted for the random one — the source omits prepending
the IV — and the decoded `permute` output of the empty plaintext is 32
bytes, while an `IV ‖ ciphertext ‖ MAC` layout needs at least 48. -/
theorem C6_counterexample :
    permute toyPrims (KeyDeriver.init toyPrims [5]) [] ≠
      encrypt toyPrims (KeyDeriver.init toyPrims [5])
        (List.replicate 16 0) [] ∧
    (b64decBytes (permute toyPrims
      (KeyDeriver.init toyPrims [5]) [])).map List.length = some 32 := by
  decide

/-- C6 amended.  `permute(plain)` computes `encryptWithIV(plain, 0^16)`
— the encryption step of `encrypt` with the fixed all-zero IV in place
of the random one — and base64url-encodes it WITHOUT prepending the IV:
its output decodes to `ciphertext ‖ MAC`, 16 bytes shorter than the
envelope `encrypt` would produce with the same IV, whose decoded form is
`0^16 ‖ ciphertext ‖ MAC`.  It is deterministic: a pure function of the
password and plaintext. -/
theorem C6_permute (P : CryptoPrims) (hC : GoodCipher P)
    (hM : GoodMac P) (password m : Bytes) :
    permute P (KeyDeriver.init P password) m =
      b64encBytes (encryptWithIV P (KeyDeriver.init P password) m
        (List.replicate 16 0)) ∧
    b64decBytes (permute P (KeyDeriver.init P password) m) =
      some (encryptWithIV P (KeyDeriver.init P password) m
        (List.replicate 16 0)) ∧
    b64decBytes (encrypt P (KeyDeriver.init P password)
        (List.replicate 16 0) m) =
      some (List.replicate 16 0 ++ encryptWithIV P
        (KeyDeriver.init P password) m (List.replicate 16 0)) := by
  refine ⟨rfl, ?_, ?_⟩
  · exact b64decBytes_b64encBytes _
      (encryptWithIV_byteValid hC hM _ _ _)
  · apply b64decBytes_b64encBytes
    intro b hb
    rcases List.mem_append.mp hb with h | h
    · have := List.eq_of_mem_replicate h
      omega
    · exact encryptWithIV_byteValid hC hM _ _ _ b h

/-- Witness for C6 amended: the decoded permute output at a concrete
plaintext. -/
theorem C6_permute_witness :
    b64decBytes (permute toyPrims (KeyDeriver.init toyPrims [5])
      [1, 2]) =
      some (encryptWithIV toyPrims (KeyDeriver.init toyPrims [5]) [1, 2]
        (List.replicate 16 0)) :=
  (C6_permute toyPrims toyPrims_goodCipher toyPrims_goodMac [5]
    [1, 2]).2.1

/-- C7.  Lookup-key construction and stability: `add` and `getList`
both compute the resource lookup key as
`permute(int2bin(type) ‖ name)`; for a fixed password the key depends
only on `(type, name)` (the two operations agree for any users, clocks,
nonces and signers), and distinct `(type, name)` pairs produce distinct
lookup keys. -/
theorem C7_lookup_key (P : CryptoPrims) (hC : GoodCipher P)
    (hM : GoodMac P) (ss1 ss2 : Bytes → String → Bytes × Bytes)
    (user1 user2 : String) (password : Bytes)
    (T1 R1 T2 R2 ty1 ty2 : Nat) (name1 name2 value iv : Bytes)
    (hty1 : ty1 < 4294967296) (hty2 : ty2 < 4294967296)
    (hn1 : ByteValid name1) (hn2 : ByteValid name2) :
    (getListParams P ss1 user1 password T1 R1 ty1 name1).name =
      permute P (KeyDeriver.init P password) (int2bin ty1 ++ name1) ∧
    (addParams P ss2 user2 password T2 R2 ty1 name1 value iv).name =
      (getListParams P ss1 user1 password T1 R1 ty1 name1).name ∧
    ((ty1, name1) ≠ (ty2, name2) →
      (getListParams P ss1 user1 password T1 R1 ty1 name1).name ≠
        (getListParams P ss1 user1 password T1 R1 ty2 name2).name) := by
  have hname : ∀ ty (nm : Bytes),
      (getListParams P ss1 user1 password T1 R1 ty nm).name =
        permute P (KeyDeriver.init P password) (int2bin ty ++ nm) := by
    intro ty nm
    show permute P (KeyDeriver.init P password)
      (concat [int2bin ty, nm]) = _
    simp [concat]
  refine ⟨hname ty1 name1, rfl, ?_⟩
  intro hne heq
  apply hne
  have hperm : permute P (KeyDeriver.init P password)
      (int2bin ty1 ++ name1) =
      permute P (KeyDeriver.init P password) (int2bin ty2 ++ name2) :=
    (hname ty1 name1).symm.trans (heq.trans (hname ty2 name2))
  have hv1 : ByteValid (int2bin ty1 ++ name1) := by
    intro b hb
    rcases List.mem_append.mp hb with h | h
    · exact int2bin_byteValid ty1 b h
    · exact hn1 b h
  have hv2 : ByteValid (int2bin ty2 ++ name2) := by
    intro b hb
    rcases List.mem_append.mp hb with h | h
    · exact int2bin_byteValid ty2 b h
    · exact hn2 b h
  have hcat := permute_injective hC hM (KeyDeriver.init P password)
    hv1 hv2 hperm
  obtain ⟨hty, hnm⟩ := int2bin_append_injective hty1 hty2 hcat
  rw [hty, hnm]

/-- Witness for C7: type 1 and type 2 with the name "foo" give distinct
lookup keys under the concrete primitives. -/
theorem C7_lookup_key_witness :
    (getListParams toyPrims (fun k _ => (k, [])) "u" [5] 0 0 1
      [102, 111, 111]).name ≠
    (getListParams toyPrims (fun k _ => (k, [])) "u" [5] 0 0 2
      [102, 111, 111]).name :=
  (C7_lookup_key toyPrims toyPrims_goodCipher toyPrims_goodMac
    (fun k _ => (k, [])) (fun k _ => (k, [])) "u" "u" [5] 0 0 0 0 1 2
    [102, 111, 111] [102, 111, 111] [] [] (by decide) (by decide)
    (by decide) (by decide)).2.2 (by decide)

/-- C8.  Key-derivation chain: constructing a `KeyDeriver` from a
password sets `crypt = H(password)`, `mac = H(crypt)`,
`authenticate = H(mac)` where `H` is the fixed hash with 32-byte
output; the derivation is a pure function of the password. -/
theorem C8_key_chain (P : CryptoPrims) (hH : HashLen P)
    (password : Bytes) :
    (KeyDeriver.init P password).crypt = P.sha256 password ∧
    (KeyDeriver.init P password).mac =
      P.sha256 (KeyDeriver.init P password).crypt ∧
    (KeyDeriver.init P password).authenticate =
      P.sha256 (KeyDeriver.init P password).mac ∧
    (KeyDeriver.init P password).crypt.length = 32 ∧
    (KeyDeriver.init P password).mac.length = 32 ∧
    (KeyDeriver.init P password).authenticate.length = 32 :=
  ⟨rfl, rfl, rfl, hH _, hH _, hH _⟩

/-- Witness for C8 at the concrete primitives. -/
theorem C8_key_chain_witness :
    (KeyDeriver.init toyPrims [5]).crypt.length = 32 :=
  (C8_key_chain toyPrims toyPrims_hashLen [5]).2.2.2.1

/-- C9.  Challenge construction: for every user and password,
`makeAuthParams` builds `t` as the decimal Unix time, a colon, and the
fresh 20-bit random integer (both passed as parameters, the random draw
being below 2^20 = 1048576); it signs exactly the string `t` with the
Signer bound to the `authenticate` key — `schnorr()`, the external
`SchnorrSigner` constructor applied to
`(KeyDeriver password).authenticate = H(H(H(password)))` — obtaining
`(e, s)`, and returns the parameter set
`{user, t, e: base64url(e), s: base64url(s)}`. -/
theorem C9_make_auth_params (P : CryptoPrims)
    (schnorrSigner : Bytes → String → Bytes × Bytes) (user : String)
    (password : Bytes) (timeNow rand20 : Nat)
    (h20 : rand20 < 1048576) :
    (makeAuthParams P schnorrSigner user password timeNow rand20).user =
      user ∧
    (makeAuthParams P schnorrSigner user password timeNow rand20).t =
      toString timeNow ++ ":" ++ toString rand20 ∧
    (makeAuthParams P schnorrSigner user password timeNow rand20).e =
      b64encBytes ((KeyDeriver.init P password).schnorr schnorrSigner
        ((makeAuthParams P schnorrSigner user password timeNow
          rand20).t)).1 ∧
    (makeAuthParams P schnorrSigner user password timeNow rand20).s =
      b64encBytes ((KeyDeriver.init P password).schnorr schnorrSigner
        ((makeAuthParams P schnorrSigner user password timeNow
          rand20).t)).2 ∧
    (KeyDeriver.init P password).schnorr schnorrSigner =
      schnorrSigner (P.sha256 (P.sha256 (P.sha256 password))) :=
  ⟨rfl, rfl, rfl, rfl, rfl⟩

/-- Witness for C9: the challenge string at time 1000 with nonce 7, and
the signer binding to the `authenticate` key, under the concrete
primitives. -/
theorem C9_make_auth_params_witness :
    (makeAuthParams toyPrims (fun k t => (k, [t.length])) "alice" [5]
      1000 7).t = "1000:7" ∧
    (KeyDeriver.init toyPrims [5]).schnorr (fun k t => (k, [t.length])) =
      fun t => (toyPrims.sha256 (toyPrims.sha256 (toyPrims.sha256 [5])),
        [t.length]) :=
  ⟨((C9_make_auth_params toyPrims (fun k t => (k, [t.length])) "alice"
      [5] 1000 7 (by decide)).2.1).trans (by decide),
   (C9_make_auth_params toyPrims (fun k t => (k, [t.length])) "alice"
      [5] 1000 7 (by decide)).2.2.2.2⟩

/-- C10.  Implicit edge case: a decoded envelope of exactly 32 bytes is
not rejected (its ciphertext is empty); when its trailing 16 bytes equal
the MAC of the empty ciphertext, the read of the last decrypted byte
indexes into an empty string, and `decrypt` fails with the modelled
`IndexError` — none of `FormatError`, `AuthenticationError`,
`PaddingError`. -/
theorem C10_empty_ciphertext (P : CryptoPrims) (hC : GoodCipher P)
    (kd : KeyDeriver) (s cr : Bytes) (hdec : b64decBytes s = some cr)
    (hlen : cr.length = 32) (hmc : cr.drop 16 = P.hmac kd.mac []) :
    decrypt P kd s = .error .indexError ∧
    DecryptError.indexError ≠ DecryptError.formatError ∧
    DecryptError.indexError ≠ DecryptError.authenticationError ∧
    DecryptError.indexError ≠ DecryptError.paddingError := by
  have hct : (cr.drop 16).take (cr.length - 32) = [] := by
    rw [hlen]
    simp
  have henc0 : P.cbcEncrypt kd.crypt (cr.take 16) [] = [] := by
    have := hC.2.1 kd.crypt (cr.take 16) []
    exact List.length_eq_zero.mp (by simpa using this)
  have hdecrypt0 : P.cbcDecrypt kd.crypt (cr.take 16) [] = [] := by
    have h := hC.1 kd.crypt (cr.take 16) []
      (by intro b hb; cases hb) ⟨0, rfl⟩
    rw [henc0] at h
    exact h
  have hmc2 : cr.drop (cr.length - 16) =
      P.hmac kd.mac ((cr.drop 16).take (cr.length - 32)) := by
    rw [hct, hlen]
    show cr.drop 16 = _
    exact hmc
  have hplain : P.cbcDecrypt kd.crypt (cr.take 16)
      ((cr.drop 16).take (cr.length - 32)) = [] := by
    rw [hct]
    exact hdecrypt0
  have heval := decrypt_mac_ok P kd hdec (by omega) hmc2 hplain
  refine ⟨?_, by decide, by decide, by decide⟩
  rw [heval]
  rfl

/-- Witness for C10: a 32-byte envelope carrying the MAC of the empty
ciphertext. -/
theorem C10_empty_ciphertext_witness :
    decrypt toyPrims (KeyDeriver.init toyPrims [5])
      (b64encBytes (List.replicate 16 9 ++ List.replicate 16 32)) =
      .error .indexError :=
  (C10_empty_ciphertext toyPrims toyPrims_goodCipher
    (KeyDeriver.init toyPrims [5])
    (b64encBytes (List.replicate 16 9 ++ List.replicate 16 32))
    (List.replicate 16 9 ++ List.replicate 16 32) (by decide) (by decide)
    (by decide)).1
